import Mathlib

/-!
Shallow embedding of the Orlik-Solomon algebra reduction engine from
sage/algebras/orlik_solomon.py: the broken-circuit table, the memoized
subset reduction (subset_image), the basis multiplication
(product_on_basis) and the algebra generators, together with proofs of
the specification claims about them.
-/

namespace OrlikSolomon

/--
An element of the free module with basis indexed by finite subsets of the
ground set (the sparse mapping from NBC sets to ring coefficients used by
the combinatorial free module).  The support field is kept canonical:
a subset is in the support exactly when its coefficient is nonzero, so
that two elements are equal exactly when their coefficient functions are.
-/
structure Elem (R : Type) [Zero R] [DecidableEq R] where
  coeff : Finset ℕ → R
  supp : Finset (Finset ℕ)
  mem_supp : ∀ m, m ∈ supp ↔ coeff m ≠ 0

namespace Elem

variable {R : Type} [CommRing R] [DecidableEq R]

theorem ext {x y : Elem R} (h : ∀ m, x.coeff m = y.coeff m) : x = y := by
  obtain ⟨f, s, hs⟩ := x
  obtain ⟨g, t, ht⟩ := y
  have hfg : f = g := funext h
  subst hfg
  have hst : s = t := by
    apply Finset.ext
    intro m
    rw [hs, ht]
  subst hst
  rfl

instance : Zero (Elem R) :=
  ⟨⟨fun _ => 0, ∅, by simp⟩⟩

@[simp] theorem coeff_zero (m : Finset ℕ) : (0 : Elem R).coeff m = 0 := rfl

@[simp] theorem supp_zero : (0 : Elem R).supp = ∅ := rfl

instance : Add (Elem R) :=
  ⟨fun x y =>
    ⟨fun m => x.coeff m + y.coeff m,
     (x.supp ∪ y.supp).filter (fun m => x.coeff m + y.coeff m ≠ 0),
     by
      intro m
      simp only [Finset.mem_filter, Finset.mem_union, x.mem_supp, y.mem_supp]
      constructor
      · rintro ⟨-, h⟩; exact h
      · intro h
        refine ⟨?_, h⟩
        by_contra hc
        push_neg at hc
        obtain ⟨h1, h2⟩ := hc
        rw [h1, h2, add_zero] at h
        exact h rfl⟩⟩

@[simp] theorem coeff_add (x y : Elem R) (m : Finset ℕ) :
    (x + y).coeff m = x.coeff m + y.coeff m := rfl

theorem supp_add_subset (x y : Elem R) : (x + y).supp ⊆ x.supp ∪ y.supp :=
  Finset.filter_subset _ _

/-- Scalar multiple of an element. -/
def smul (c : R) (x : Elem R) : Elem R :=
  ⟨fun m => c * x.coeff m,
   x.supp.filter (fun m => c * x.coeff m ≠ 0),
   by
    intro m
    simp only [Finset.mem_filter, x.mem_supp]
    constructor
    · rintro ⟨-, h⟩; exact h
    · intro h
      refine ⟨?_, h⟩
      intro hc
      rw [hc, mul_zero] at h
      exact h rfl⟩

@[simp] theorem coeff_smul (c : R) (x : Elem R) (m : Finset ℕ) :
    (smul c x).coeff m = c * x.coeff m := rfl

theorem supp_smul_subset (c : R) (x : Elem R) : (smul c x).supp ⊆ x.supp :=
  Finset.filter_subset _ _

/-- Additive negation of an element. -/
def neg (x : Elem R) : Elem R := smul (-1) x

@[simp] theorem coeff_neg (x : Elem R) (m : Finset ℕ) :
    (neg x).coeff m = -(x.coeff m) := by
  simp [neg]

/-- The basis element (single-term mapping) indexed by a subset, with the
given coefficient; monomial S 1 models self.monomial(S). -/
def monomial (S : Finset ℕ) (c : R) : Elem R :=
  ⟨fun m => if m = S then c else 0,
   if c = 0 then ∅ else {S},
   by
    intro m
    by_cases hm : m = S <;> by_cases hc : c = 0 <;> simp [hm, hc]⟩

@[simp] theorem coeff_monomial (S : Finset ℕ) (c : R) (m : Finset ℕ) :
    (monomial S c).coeff m = if m = S then c else 0 := rfl

theorem supp_monomial_subset (S : Finset ℕ) (c : R) :
    (monomial S c).supp ⊆ {S} := by
  by_cases hc : c = 0 <;> simp [monomial, hc]

instance : AddCommMonoid (Elem R) where
  add_assoc x y z := ext (fun m => add_assoc _ _ _)
  zero_add x := ext (fun m => zero_add _)
  add_zero x := ext (fun m => add_zero _)
  add_comm x y := ext (fun m => add_comm _ _)
  nsmul := nsmulRec

@[simp] theorem smul_zero' (c : R) : smul c (0 : Elem R) = 0 :=
  ext (fun m => by simp)

@[simp] theorem smul_one' (x : Elem R) : smul 1 x = x :=
  ext (fun m => by simp)

/-- Coefficient extraction at a fixed index, as an additive monoid
homomorphism (used to push coefficients through finite sums). -/
def coeffHom (m : Finset ℕ) : Elem R →+ R where
  toFun x := x.coeff m
  map_zero' := rfl
  map_add' _ _ := rfl

theorem coeff_sum {ι : Type} (s : Finset ι) (f : ι → Elem R) (m : Finset ℕ) :
    (∑ i ∈ s, f i).coeff m = ∑ i ∈ s, (f i).coeff m :=
  map_sum (coeffHom m) f s

end Elem

/-!
## Sorting by the ordering key

The source sorts subsets of the ground set with sorted(c, key=self.sorting.get);
we model this with an insertion sort by the rank function.  The input list is
the canonical enumeration of the finite set, so the result is the ascending
enumeration with respect to the ordering.
-/

/-- Insert an element into a list so that elements with smaller key come
first. -/
def insertByKey (key : ℕ → ℕ) (x : ℕ) : List ℕ → List ℕ
  | [] => [x]
  | y :: ys => if key x ≤ key y then x :: y :: ys else y :: insertByKey key x ys

/-- Insertion sort of a list of ground-set elements by the rank function. -/
def sortByKey (key : ℕ → ℕ) : List ℕ → List ℕ
  | [] => []
  | x :: xs => insertByKey key x (sortByKey key xs)

theorem perm_insertByKey (key : ℕ → ℕ) (x : ℕ) (l : List ℕ) :
    List.Perm (insertByKey key x l) (x :: l) := by
  induction l with
  | nil => simp [insertByKey]
  | cons y ys ih =>
    by_cases h : key x ≤ key y
    · simp [insertByKey, h]
    · simp only [insertByKey, if_neg h]
      exact (ih.cons y).trans (List.Perm.swap x y ys)

theorem perm_sortByKey (key : ℕ → ℕ) (l : List ℕ) :
    List.Perm (sortByKey key l) l := by
  induction l with
  | nil => simp [sortByKey]
  | cons x xs ih =>
    exact (perm_insertByKey key x (sortByKey key xs)).trans (ih.cons x)

theorem mem_sortByKey {key : ℕ → ℕ} {l : List ℕ} {a : ℕ} :
    a ∈ sortByKey key l ↔ a ∈ l :=
  (perm_sortByKey key l).mem_iff

theorem nodup_sortByKey {key : ℕ → ℕ} {l : List ℕ} (h : l.Nodup) :
    (sortByKey key l).Nodup :=
  ((perm_sortByKey key l).nodup_iff).mpr h

theorem sorted_insertByKey (key : ℕ → ℕ) (x : ℕ) (l : List ℕ)
    (h : l.Sorted (fun a b => key a ≤ key b)) :
    (insertByKey key x l).Sorted (fun a b => key a ≤ key b) := by
  induction l with
  | nil => simp [insertByKey]
  | cons y ys ih =>
    rw [List.sorted_cons] at h
    obtain ⟨hy, hys⟩ := h
    by_cases hxy : key x ≤ key y
    · simp only [insertByKey, if_pos hxy]
      rw [List.sorted_cons]
      constructor
      · intro b hb
        rcases List.mem_cons.mp hb with hb | hb
        · exact hb ▸ hxy
        · exact le_trans hxy (hy b hb)
      · rw [List.sorted_cons]; exact ⟨hy, hys⟩
    · simp only [insertByKey, if_neg hxy]
      rw [List.sorted_cons]
      constructor
      · intro b hb
        rcases List.mem_cons.mp ((perm_insertByKey key x ys).mem_iff.mp hb) with hb | hb
        · exact hb ▸ le_of_not_le hxy
        · exact hy b hb
      · exact ih hys

theorem sorted_sortByKey (key : ℕ → ℕ) (l : List ℕ) :
    (sortByKey key l).Sorted (fun a b => key a ≤ key b) := by
  induction l with
  | nil => simp [sortByKey]
  | cons x xs ih => exact sorted_insertByKey key x _ ih

/-- With pairwise distinct keys, the sort is strictly increasing in key. -/
theorem strictSorted_sortByKey {key : ℕ → ℕ} {l : List ℕ} (hn : l.Nodup)
    (hinj : ∀ a ∈ l, ∀ b ∈ l, key a = key b → a = b) :
    (sortByKey key l).Sorted (fun a b => key a < key b) := by
  have hs := sorted_sortByKey key l
  have hn' := @nodup_sortByKey key l hn
  refine List.Pairwise.imp_of_mem ?_ (List.Pairwise.and hs hn')
  intro a b ha hb hab
  refine lt_of_le_of_ne hab.1 ?_
  intro hk
  exact hab.2 (hinj a (mem_sortByKey.mp ha) b (mem_sortByKey.mp hb) hk)

/-- A strictly key-sorted list is determined by its set of members:
any two key-strictly-sorted lists that are permutations of each other
are equal. -/
theorem eq_of_perm_of_strictSorted (key : ℕ → ℕ) {l₁ l₂ : List ℕ}
    (hp : List.Perm l₁ l₂)
    (h₁ : l₁.Sorted (fun a b => key a < key b))
    (h₂ : l₂.Sorted (fun a b => key a < key b)) : l₁ = l₂ := by
  haveI : IsAntisymm ℕ (fun a b => key a < key b) :=
    ⟨fun a b hab hba => absurd (lt_trans hab hba) (lt_irrefl _)⟩
  exact List.eq_of_perm_of_sorted hp h₁ h₂

/-!
## The algebra data: ground set, circuits, ordering

The matroid is consumed through its ground set and its list of circuits
(the iteration order of circuits() matters for the last-write-wins
behaviour of the broken-circuit table, so a list is used).  The ordering
enters through the rank function sorting, the model of the dictionary
self.sorting built from the ordering tuple.
-/

/-- A canonical, directly computable enumeration of a finite set of
naturals (the iteration over the elements of a frozenset). -/
def finsetAsc (s : Finset ℕ) : List ℕ :=
  (List.range (s.sup id + 1)).filter (fun x => x ∈ s)

theorem mem_finsetAsc {s : Finset ℕ} {a : ℕ} : a ∈ finsetAsc s ↔ a ∈ s := by
  rw [finsetAsc, List.mem_filter]
  constructor
  · rintro ⟨-, h⟩
    exact of_decide_eq_true h
  · intro h
    refine ⟨List.mem_range.mpr ?_, decide_eq_true h⟩
    have := Finset.le_sup (f := id) h
    simp only [id_eq] at this
    omega

theorem nodup_finsetAsc (s : Finset ℕ) : (finsetAsc s).Nodup :=
  (List.nodup_range _).filter _

structure OSData where
  groundset : Finset ℕ
  circuits : List (Finset ℕ)
  sorting : ℕ → ℕ

namespace OSData

variable (D : OSData)

/-- The canonical enumeration of a subset in ascending order of the
ordering: model of sorted(s, key=self.sorting.get). -/
def csorted (s : Finset ℕ) : List ℕ :=
  sortByKey D.sorting (finsetAsc s)

theorem mem_csorted {D : OSData} {s : Finset ℕ} {a : ℕ} :
    a ∈ D.csorted s ↔ a ∈ s := by
  rw [csorted, mem_sortByKey, mem_finsetAsc]

theorem nodup_csorted (s : Finset ℕ) : (D.csorted s).Nodup :=
  nodup_sortByKey (nodup_finsetAsc s)

theorem toFinset_csorted (s : Finset ℕ) : (D.csorted s).toFinset = s := by
  apply Finset.ext
  intro a
  rw [List.mem_toFinset, mem_csorted]

theorem sorted_csorted (s : Finset ℕ) :
    (D.csorted s).Sorted (fun a b => D.sorting a ≤ D.sorting b) :=
  sorted_sortByKey _ _

theorem strictSorted_csorted {D : OSData} {s : Finset ℕ}
    (hinj : ∀ a ∈ s, ∀ b ∈ s, D.sorting a = D.sorting b → a = b) :
    (D.csorted s).Sorted (fun a b => D.sorting a < D.sorting b) := by
  refine strictSorted_sortByKey (nodup_finsetAsc s) ?_
  intro a ha b hb
  exact hinj a (mem_finsetAsc.mp ha) b (mem_finsetAsc.mp hb)

theorem csorted_singleton (D : OSData) (x : ℕ) : D.csorted {x} = [x] := by
  refine eq_of_perm_of_strictSorted D.sorting ?_ ?_ ?_
  · refine List.perm_of_nodup_nodup_toFinset_eq (D.nodup_csorted _)
      (by simp) ?_
    rw [D.toFinset_csorted]
    simp
  · refine strictSorted_csorted ?_
    intro a ha b hb _
    rw [Finset.mem_singleton] at ha hb
    rw [ha, hb]
  · simp

theorem csorted_pair {D : OSData} {x y : ℕ}
    (h : D.sorting x < D.sorting y) :
    D.csorted ({x, y} : Finset ℕ) = [x, y] := by
  have hxy : x ≠ y := fun he => absurd (he ▸ h) (lt_irrefl _)
  refine eq_of_perm_of_strictSorted D.sorting ?_ ?_ ?_
  · refine List.perm_of_nodup_nodup_toFinset_eq (D.nodup_csorted _)
      (by simp [hxy]) ?_
    rw [D.toFinset_csorted]
    simp
  · refine strictSorted_csorted ?_
    intro a ha b hb hab
    have ha' : a = x ∨ a = y := by
      rcases Finset.mem_insert.mp ha with h1 | h1
      · exact Or.inl h1
      · exact Or.inr (Finset.mem_singleton.mp h1)
    have hb' : b = x ∨ b = y := by
      rcases Finset.mem_insert.mp hb with h1 | h1
      · exact Or.inl h1
      · exact Or.inr (Finset.mem_singleton.mp h1)
    rcases ha' with h1 | h1 <;> rcases hb' with h2 | h2
    · rw [h1, h2]
    · rw [h1, h2] at hab
      exact absurd hab (Nat.ne_of_lt h)
    · rw [h1, h2] at hab
      exact absurd hab.symm (Nat.ne_of_lt h)
    · rw [h1, h2]
  · rw [List.sorted_cons]
    refine ⟨fun b hb => ?_, by simp⟩
    rw [List.mem_singleton] at hb
    exact hb ▸ h

theorem length_csorted (s : Finset ℕ) : (D.csorted s).length = s.card := by
  have h1 := List.toFinset_card_of_nodup (D.nodup_csorted s)
  rw [D.toFinset_csorted s] at h1
  exact h1.symm

/-- The pivot of a circuit: the first entry of the circuit sorted by the
ordering (L[0] in the source). -/
def pivotOf (c : Finset ℕ) : ℕ := (D.csorted c).headI

/-- The broken circuit of a circuit: the circuit sorted by the ordering
with its first entry removed (frozenset(L[1:]) in the source). -/
def brokenOf (c : Finset ℕ) : Finset ℕ := (D.csorted c).tail.toFinset

theorem csorted_eq_cons {D : OSData} {c : Finset ℕ} (hc : c ≠ ∅) :
    D.csorted c = D.pivotOf c :: (D.csorted c).tail := by
  have hne : D.csorted c ≠ [] := by
    intro h
    apply hc
    have := D.toFinset_csorted c
    rw [h] at this
    simpa using this.symm
  obtain ⟨a, t, ht⟩ := List.exists_cons_of_ne_nil hne
  rw [ht, pivotOf, ht]
  simp

theorem pivotOf_mem {D : OSData} {c : Finset ℕ} (hc : c ≠ ∅) :
    D.pivotOf c ∈ c := by
  rw [← mem_csorted (D := D), csorted_eq_cons hc]
  exact List.mem_cons_self _ _

theorem brokenOf_subset {D : OSData} {c : Finset ℕ} (hc : c ≠ ∅) :
    D.brokenOf c ⊆ c := by
  intro j hj
  rw [brokenOf, List.mem_toFinset] at hj
  rw [← mem_csorted (D := D), csorted_eq_cons hc]
  exact List.mem_cons_of_mem _ hj

theorem insert_pivot_brokenOf {D : OSData} {c : Finset ℕ} (hc : c ≠ ∅) :
    insert (D.pivotOf c) (D.brokenOf c) = c := by
  have h := congrArg List.toFinset (csorted_eq_cons (D := D) hc)
  rw [D.toFinset_csorted c] at h
  rw [brokenOf]
  conv_rhs => rw [h]
  simp

theorem pivotOf_not_mem_brokenOf {D : OSData} {c : Finset ℕ} (hc : c ≠ ∅) :
    D.pivotOf c ∉ D.brokenOf c := by
  have hn := D.nodup_csorted c
  rw [csorted_eq_cons hc] at hn
  rw [List.nodup_cons] at hn
  rw [brokenOf, List.mem_toFinset]
  exact hn.1

/-- The pivot of a circuit has strictly smaller rank than every element of
the broken circuit, provided the rank function separates the elements of
the circuit. -/
theorem sorting_pivotOf_lt {D : OSData} {c : Finset ℕ} (hc : c ≠ ∅)
    (hinj : ∀ a ∈ c, ∀ b ∈ c, D.sorting a = D.sorting b → a = b) :
    ∀ j ∈ D.brokenOf c, D.sorting (D.pivotOf c) < D.sorting j := by
  intro j hj
  have hs : (D.csorted c).Sorted (fun a b => D.sorting a < D.sorting b) := by
    refine strictSorted_csorted ?_
    intro a ha b hb
    exact hinj a ha b hb
  rw [csorted_eq_cons hc, List.sorted_cons] at hs
  rw [brokenOf, List.mem_toFinset] at hj
  exact hs.1 j hj

end OSData

/-!
## The broken-circuit table

The source stores the broken circuits in a Python dictionary keyed by the
broken-circuit set, iterating over circuits(); an existing key keeps its
position and its value is overwritten (last write wins).  The table is
modelled as an association list with exactly that insertion behaviour,
and the search in subset_image as the first entry whose key is contained
in the argument (dictionaries iterate in insertion order).
-/

/-- Insertion into an association list with Python-dict semantics: an
existing key is updated in place, a new key is appended. -/
def dictInsert (t : List (Finset ℕ × ℕ)) (k : Finset ℕ) (v : ℕ) :
    List (Finset ℕ × ℕ) :=
  if t.any (fun e => e.1 = k) then t.map (fun e => if e.1 = k then (k, v) else e)
  else t ++ [(k, v)]

theorem mem_dictInsert {t : List (Finset ℕ × ℕ)} {k : Finset ℕ} {v : ℕ}
    {e : Finset ℕ × ℕ} (he : e ∈ dictInsert t k v) : e = (k, v) ∨ e ∈ t := by
  unfold dictInsert at he
  by_cases h : t.any (fun e => e.1 = k)
  · rw [if_pos h, List.mem_map] at he
    obtain ⟨a, ha, hae⟩ := he
    by_cases hak : a.1 = k
    · rw [if_pos hak] at hae
      exact Or.inl hae.symm
    · rw [if_neg hak] at hae
      exact Or.inr (hae ▸ ha)
  · rw [if_neg h, List.mem_append] at he
    rcases he with he | he
    · exact Or.inr he
    · simp only [List.mem_singleton] at he
      exact Or.inl he

/-- An association list has the key k when some entry carries it. -/
def hasKey (t : List (Finset ℕ × ℕ)) (k : Finset ℕ) : Prop :=
  ∃ v, (k, v) ∈ t

theorem hasKey_dictInsert_self (t : List (Finset ℕ × ℕ)) (k : Finset ℕ)
    (v : ℕ) : hasKey (dictInsert t k v) k := by
  unfold dictInsert
  by_cases h : t.any (fun e => e.1 = k)
  · rw [List.any_eq_true] at h
    obtain ⟨e, he, hek⟩ := h
    rw [decide_eq_true_eq] at hek
    refine ⟨v, ?_⟩
    rw [if_pos (by rw [List.any_eq_true]; exact ⟨e, he, by simp [hek]⟩)]
    rw [List.mem_map]
    exact ⟨e, he, by rw [if_pos hek]⟩
  · rw [if_neg h]
    exact ⟨v, by simp⟩

theorem hasKey_dictInsert_mono {t : List (Finset ℕ × ℕ)} {k : Finset ℕ}
    (k' : Finset ℕ) (v' : ℕ) (h : hasKey t k) :
    hasKey (dictInsert t k' v') k := by
  obtain ⟨v, hv⟩ := h
  unfold dictInsert
  by_cases ha : t.any (fun e => e.1 = k')
  · rw [if_pos ha]
    by_cases hkk : k = k'
    · subst hkk
      refine ⟨v', ?_⟩
      rw [List.mem_map]
      exact ⟨(k, v), hv, by rw [if_pos rfl]⟩
    · refine ⟨v, ?_⟩
      rw [List.mem_map]
      refine ⟨(k, v), hv, ?_⟩
      rw [if_neg (by simpa using hkk)]
  · rw [if_neg ha]
    exact ⟨v, List.mem_append_left _ hv⟩

/-- The broken-circuit table of the algebra data: for each circuit in
iteration order, record the broken circuit and its pivot. -/
def bcTable (D : OSData) : List (Finset ℕ × ℕ) :=
  D.circuits.foldl (fun t c => dictInsert t (D.brokenOf c) (D.pivotOf c)) []

theorem foldl_dictInsert_mem {D : OSData} (P : Finset ℕ × ℕ → Prop) :
    ∀ (cs : List (Finset ℕ)) (t : List (Finset ℕ × ℕ)),
      (∀ e ∈ t, P e) → (∀ c ∈ cs, P (D.brokenOf c, D.pivotOf c)) →
      ∀ e ∈ cs.foldl (fun t c => dictInsert t (D.brokenOf c) (D.pivotOf c)) t,
        P e := by
  intro cs
  induction cs with
  | nil => intro t ht _ e he; exact ht e he
  | cons c cs ih =>
    intro t ht hcs e he
    refine ih _ ?_ (fun c hc => hcs c (List.mem_cons_of_mem _ hc)) e he
    intro a ha
    rcases mem_dictInsert ha with ha | ha
    · exact ha ▸ hcs c (List.mem_cons_self _ _)
    · exact ht a ha

/-- Every entry of the broken-circuit table is the broken circuit and
pivot of some circuit of the matroid. -/
theorem bcTable_mem {D : OSData} {e : Finset ℕ × ℕ} (he : e ∈ bcTable D) :
    ∃ c ∈ D.circuits, e = (D.brokenOf c, D.pivotOf c) := by
  refine foldl_dictInsert_mem
    (fun e => ∃ c ∈ D.circuits, e = (D.brokenOf c, D.pivotOf c))
    D.circuits [] (by simp) ?_ e he
  intro c hc
  exact ⟨c, hc, rfl⟩

theorem foldl_dictInsert_hasKey {D : OSData} {k : Finset ℕ} :
    ∀ (cs : List (Finset ℕ)) (t : List (Finset ℕ × ℕ)), hasKey t k →
      hasKey (cs.foldl (fun t c => dictInsert t (D.brokenOf c) (D.pivotOf c)) t) k := by
  intro cs
  induction cs with
  | nil => intro t ht; exact ht
  | cons c cs ih =>
    intro t ht
    exact ih _ (hasKey_dictInsert_mono _ _ ht)

theorem foldl_dictInsert_hasKey_of_mem {D : OSData} {c : Finset ℕ} :
    ∀ (cs : List (Finset ℕ)) (t : List (Finset ℕ × ℕ)), c ∈ cs →
      hasKey (cs.foldl (fun t c => dictInsert t (D.brokenOf c) (D.pivotOf c)) t)
        (D.brokenOf c) := by
  intro cs
  induction cs with
  | nil => intro t hc; cases hc
  | cons c₀ cs ih =>
    intro t hc
    rcases List.mem_cons.mp hc with hc | hc
    · subst hc
      simp only [List.foldl_cons]
      exact foldl_dictInsert_hasKey cs _ (hasKey_dictInsert_self _ _ _)
    · exact ih _ hc

/-- The key set of the broken-circuit table covers every broken circuit. -/
theorem bcTable_hasKey {D : OSData} {c : Finset ℕ} (hc : c ∈ D.circuits) :
    hasKey (bcTable D) (D.brokenOf c) :=
  foldl_dictInsert_hasKey_of_mem D.circuits [] hc

/-- The linear search of subset_image: the first entry of the table whose
broken circuit is contained in S. -/
def findEntry (D : OSData) (S : Finset ℕ) : Option (Finset ℕ × ℕ) :=
  (bcTable D).find? (fun e => decide (e.1 ⊆ S))

theorem findEntry_some {D : OSData} {S : Finset ℕ} {e : Finset ℕ × ℕ}
    (he : findEntry D S = some e) : e ∈ bcTable D ∧ e.1 ⊆ S := by
  refine ⟨List.mem_of_find?_eq_some he, ?_⟩
  have := List.find?_some he
  rwa [decide_eq_true_eq] at this

theorem findEntry_none {D : OSData} {S : Finset ℕ}
    (h : findEntry D S = none) : ∀ e ∈ bcTable D, ¬ e.1 ⊆ S := by
  intro e he
  have := List.find?_eq_none.mp h e he
  rwa [decide_eq_true_eq] at this

/-- An NBC (no-broken-circuit) set: a subset containing no broken circuit
of the matroid. -/
def isNBC (D : OSData) (T : Finset ℕ) : Prop :=
  ∀ c ∈ D.circuits, ¬ D.brokenOf c ⊆ T

theorem findEntry_eq_none_iff {D : OSData} {S : Finset ℕ} :
    findEntry D S = none ↔ isNBC D S := by
  constructor
  · intro h c hc hsub
    obtain ⟨v, hv⟩ := bcTable_hasKey hc
    exact findEntry_none h _ hv hsub
  · intro h
    cases hf : findEntry D S with
    | none => rfl
    | some e =>
      obtain ⟨hmem, hsub⟩ := findEntry_some hf
      obtain ⟨c, hc, hce⟩ := bcTable_mem hmem
      rw [hce] at hsub
      exact absurd hsub (h c hc)

/-!
## The termination measure and the reduction algorithm

Each recursive call of subset_image replaces one element j of the
argument by the pivot i of the matched broken circuit, and i has strictly
smaller rank than j.  The sum over the set of (rank + 1) therefore
decreases strictly, which bounds the recursion depth; the algorithm is
modelled with an explicit fuel argument and the recursion is shown to
succeed whenever the fuel exceeds this measure.
-/

/-- Termination measure: the sum over the subset of (rank + 1). -/
def measw (D : OSData) (S : Finset ℕ) : ℕ := ∑ x ∈ S, (D.sorting x + 1)

theorem measw_step {D : OSData} {S : Finset ℕ} {i j : ℕ} (hi : i ∉ S)
    (hj : j ∈ S) (hij : D.sorting i < D.sorting j) :
    measw D ((insert i S).erase j) < measw D S := by
  have hji : j ∈ insert i S := Finset.mem_insert_of_mem hj
  have h1 : measw D ((insert i S).erase j) + (D.sorting j + 1)
      = measw D (insert i S) :=
    Finset.sum_erase_add _ _ hji
  have h2 : measw D (insert i S) = D.sorting i + 1 + measw D S :=
    Finset.sum_insert hi
  omega

variable (R : Type) [CommRing R] [DecidableEq R]

/-- The sweep of subset_image over the sorted elements of S with the pivot
inserted: r accumulates the recursive reductions against the running
coefficient, the coefficient is negated on every step after the pivot has
been passed.  Returns none when a recursive call runs out of fuel. -/
def siLoop (rec : Finset ℕ → Option (Elem R)) (Si bc : Finset ℕ) (i : ℕ) :
    List ℕ → R → Bool → Elem R → Option (Elem R)
  | [], _, _, r => some r
  | j :: js, coeff, switch, r =>
    (if j ∈ bc then (rec (Si.erase j)).map (fun e => r + Elem.smul coeff e)
     else some r).bind
      (fun r' => siLoop rec Si bc i js (if switch then -coeff else coeff)
        (if j = i then true else switch) r')

/-- Fuel-indexed model of OrlikSolomonAlgebra.subset_image: search the
broken-circuit table for a broken circuit contained in S; if none, S is
NBC and maps to its own monomial; if found with its pivot inside S, the
set contains a full circuit and maps to zero; otherwise expand along the
boundary relation of the circuit, recursing with one unit of fuel less. -/
def subsetImageF (D : OSData) : ℕ → Finset ℕ → Option (Elem R)
  | 0, _ => none
  | (fuel+1), S =>
    match findEntry D S with
    | none => some (Elem.monomial S 1)
    | some (bc, i) =>
      if i ∈ S then some 0
      else
        siLoop R (subsetImageF D fuel) (insert i S) bc i
          (D.csorted (insert i S)) 1 false 0

/-- Pure mirror of the sweep, used to state what the loop computes once
all recursive calls are known to succeed. -/
def loopVal (f : Finset ℕ → Elem R) (Si bc : Finset ℕ) (i : ℕ) :
    List ℕ → R → Bool → Elem R → Elem R
  | [], _, _, r => r
  | j :: js, coeff, switch, r =>
    loopVal f Si bc i js (if switch then -coeff else coeff)
      (if j = i then true else switch)
      (if j ∈ bc then r + Elem.smul coeff (f (Si.erase j)) else r)

/-- The reduction subset_image(S): run the fueled algorithm with fuel one
more than the termination measure of S. -/
def subsetImage (D : OSData) (S : Finset ℕ) : Elem R :=
  (subsetImageF R D (measw D S + 1) S).getD 0

/-- If every recursive call made by the sweep succeeds with the value of
the pure function f, the optional sweep succeeds with the pure sweep. -/
theorem siLoop_eq_of_rec {R : Type} [CommRing R] [DecidableEq R]
    {rec : Finset ℕ → Option (Elem R)} (f : Finset ℕ → Elem R)
    {Si bc : Finset ℕ} {i : ℕ} :
    ∀ {l : List ℕ},
      (∀ j ∈ l, j ∈ bc → rec (Si.erase j) = some (f (Si.erase j))) →
      ∀ (c : R) (b : Bool) (r : Elem R),
        siLoop R rec Si bc i l c b r = some (loopVal R f Si bc i l c b r) := by
  intro l
  induction l with
  | nil => intro _ c b r; rfl
  | cons j js ih =>
    intro h c b r
    have hjs : ∀ a ∈ js, a ∈ bc → rec (Si.erase a) = some (f (Si.erase a)) :=
      fun a ha => h a (List.mem_cons_of_mem _ ha)
    by_cases hj : j ∈ bc
    · rw [siLoop, loopVal, if_pos hj, if_pos hj,
        h j (List.mem_cons_self _ _) hj]
      simp only [Option.map_some', Option.some_bind]
      exact ih hjs _ _ _
    · rw [siLoop, loopVal, if_neg hj, if_neg hj]
      simp only [Option.some_bind]
      exact ih hjs _ _ _

/-!
## Well-formedness of the data

The claims quantify over matroids; the matroid axioms enter through this
predicate: circuits live in the ground set, circuits are nonempty, the
ordering separates ground-set elements (it is a bijection onto an initial
segment in the source), and the (weak) circuit elimination axiom holds.
-/

def WF (D : OSData) : Prop :=
  (∀ c ∈ D.circuits, c ⊆ D.groundset) ∧
  (∀ c ∈ D.circuits, c ≠ ∅) ∧
  (∀ x ∈ D.groundset, ∀ y ∈ D.groundset, D.sorting x = D.sorting y → x = y) ∧
  (∀ c₁ ∈ D.circuits, ∀ c₂ ∈ D.circuits, c₁ ≠ c₂ →
    ∀ e ∈ c₁ ∩ c₂, ∃ c₃ ∈ D.circuits, c₃ ⊆ (c₁ ∪ c₂).erase e)

instance (D : OSData) : Decidable (WF D) := by
  unfold WF
  infer_instance

/-- What a successful table search yields, for well-formed data: the
broken circuit is contained in S and together with its pivot forms a
circuit whose pivot is rank-minimal. -/
theorem entry_spec {D : OSData} (hw : WF D) {S bc : Finset ℕ} {i : ℕ}
    (h : findEntry D S = some (bc, i)) :
    bc ⊆ S ∧ ∃ c ∈ D.circuits, insert i bc = c ∧ i ∉ bc ∧
      (∀ j ∈ bc, D.sorting i < D.sorting j) := by
  obtain ⟨hmem, hsub⟩ := findEntry_some h
  obtain ⟨c, hc, hce⟩ := bcTable_mem hmem
  have hbc : bc = D.brokenOf c := congrArg Prod.fst hce
  have hpiv : i = D.pivotOf c := congrArg Prod.snd hce
  obtain ⟨hg, hne, hinj, -⟩ := hw
  have hcne : c ≠ ∅ := hne c hc
  subst hbc
  subst hpiv
  refine ⟨hsub, c, hc, OSData.insert_pivot_brokenOf hcne,
    OSData.pivotOf_not_mem_brokenOf hcne, ?_⟩
  exact OSData.sorting_pivotOf_lt hcne
    (fun a ha b hb => hinj a (hg c hc ha) b (hg c hc hb))

/-- The measure strictly decreases along every recursive call of the
sweep triggered by a successful table search. -/
theorem measw_of_entry {D : OSData} (hw : WF D) {S bc : Finset ℕ} {i : ℕ}
    (h : findEntry D S = some (bc, i)) (hiS : i ∉ S) :
    ∀ j ∈ bc, measw D ((insert i S).erase j) < measw D S := by
  obtain ⟨hsub, c, hc, -, -, hlt⟩ := entry_spec hw h
  intro j hj
  exact measw_step hiS (hsub hj) (hlt j hj)

/-- Master lemma: with well-formed data, the fueled algorithm succeeds at
every fuel above the measure, with a value independent of the fuel. -/
theorem subsetImageF_eq {R : Type} [CommRing R] [DecidableEq R]
    {D : OSData} (hw : WF D) :
    ∀ (n : ℕ) (S : Finset ℕ), measw D S < n →
      subsetImageF R D n S = some (subsetImage R D S) := by
  intro n
  induction n using Nat.strong_induction_on with
  | _ n ih =>
    intro S hS
    obtain ⟨m, rfl⟩ : ∃ m, n = m + 1 := ⟨n - 1, by omega⟩
    cases hfe : findEntry D S with
    | none =>
      rw [subsetImage]
      simp only [subsetImageF, hfe]
      rfl
    | some e =>
      obtain ⟨bc, i⟩ := e
      by_cases hiS : i ∈ S
      · rw [subsetImage]
        simp only [subsetImageF, hfe, if_pos hiS]
        rfl
      · have hdec := measw_of_entry hw hfe hiS
        have hrec : ∀ (fu : ℕ), measw D S ≤ fu → fu ≤ m →
            ∀ j ∈ D.csorted (insert i S), j ∈ bc →
            subsetImageF R D fu ((insert i S).erase j)
              = some (subsetImage R D ((insert i S).erase j)) := by
          intro fu hfu1 hfu2 j _ hj
          exact ih fu (by omega) _ (lt_of_lt_of_le (hdec j hj) hfu1)
        rw [subsetImage]
        simp only [subsetImageF, hfe, if_neg hiS]
        rw [siLoop_eq_of_rec (subsetImage R D)
          (hrec m (by omega) le_rfl)]
        rw [siLoop_eq_of_rec (subsetImage R D)
          (hrec (measw D S) le_rfl (by omega))]
        rfl

/-- Unfolding equation of subset_image, NBC case: when no broken circuit
is contained in S, the result is the monomial on S. -/
theorem subsetImage_of_none {R : Type} [CommRing R] [DecidableEq R]
    {D : OSData} {S : Finset ℕ} (hfe : findEntry D S = none) :
    subsetImage R D S = Elem.monomial S 1 := by
  rw [subsetImage]
  simp only [subsetImageF, hfe]
  rfl

/-- Unfolding equation of subset_image, full-circuit case: when the first
matching broken circuit has its pivot inside S, the result is zero. -/
theorem subsetImage_of_pivot_mem {R : Type} [CommRing R] [DecidableEq R]
    {D : OSData} {S bc : Finset ℕ} {i : ℕ}
    (hfe : findEntry D S = some (bc, i)) (hiS : i ∈ S) :
    subsetImage R D S = 0 := by
  rw [subsetImage]
  simp only [subsetImageF, hfe, if_pos hiS]
  rfl

/-- Unfolding equation of subset_image, expansion case: when the first
matching broken circuit has its pivot outside S, the result is the sweep
over the sorted elements of S with the pivot inserted, recursing through
subset_image itself. -/
theorem subsetImage_of_pivot_not_mem {R : Type} [CommRing R] [DecidableEq R]
    {D : OSData} (hw : WF D) {S bc : Finset ℕ} {i : ℕ}
    (hfe : findEntry D S = some (bc, i)) (hiS : i ∉ S) :
    subsetImage R D S = loopVal R (subsetImage R D) (insert i S) bc i
      (D.csorted (insert i S)) 1 false 0 := by
  have hdec := measw_of_entry hw hfe hiS
  rw [subsetImage]
  simp only [subsetImageF, hfe, if_neg hiS]
  rw [siLoop_eq_of_rec (subsetImage R D)
    (fun j _ hj => subsetImageF_eq hw (measw D S) _ (hdec j hj))]
  rfl

/-- When every recursive reduction inside the sweep vanishes, the sweep
returns its accumulator unchanged. -/
theorem loopVal_eq_of_zero {R : Type} [CommRing R] [DecidableEq R]
    {f : Finset ℕ → Elem R} {Si bc : Finset ℕ} {i : ℕ} :
    ∀ {l : List ℕ}, (∀ j ∈ l, j ∈ bc → f (Si.erase j) = 0) →
      ∀ (c : R) (b : Bool) (r : Elem R), loopVal R f Si bc i l c b r = r := by
  intro l
  induction l with
  | nil => intro _ c b r; rfl
  | cons j js ih =>
    intro h c b r
    rw [loopVal, ih (fun a ha => h a (List.mem_cons_of_mem _ ha))]
    by_cases hj : j ∈ bc
    · rw [if_pos hj, h j (List.mem_cons_self _ _) hj]
      simp
    · rw [if_neg hj]

/-- A nonzero coefficient of the sweep comes from the accumulator or from
one of the recursive reductions. -/
theorem loopVal_coeff {R : Type} [CommRing R] [DecidableEq R]
    {f : Finset ℕ → Elem R} {Si bc : Finset ℕ} {i : ℕ} :
    ∀ {l : List ℕ} (c : R) (b : Bool) (r : Elem R) (m : Finset ℕ),
      (loopVal R f Si bc i l c b r).coeff m ≠ 0 →
      r.coeff m ≠ 0 ∨ ∃ j ∈ l, j ∈ bc ∧ (f (Si.erase j)).coeff m ≠ 0 := by
  intro l
  induction l with
  | nil => intro c b r m h; exact Or.inl h
  | cons j js ih =>
    intro c b r m h
    rw [loopVal] at h
    rcases ih _ _ _ _ h with h' | ⟨a, ha, hab, hac⟩
    · by_cases hj : j ∈ bc
      · rw [if_pos hj, Elem.coeff_add, Elem.coeff_smul] at h'
        by_cases hr : r.coeff m = 0
        · refine Or.inr ⟨j, List.mem_cons_self _ _, hj, fun hf => ?_⟩
          rw [hr, hf, mul_zero, add_zero] at h'
          exact h' rfl
        · exact Or.inl hr
      · rw [if_neg hj] at h'
        exact Or.inl h'
    · exact Or.inr ⟨a, List.mem_cons_of_mem _ ha, hab, hac⟩

/-- Key vanishing theorem: the reduction of any dependent subset (any set
containing a circuit) is zero.  The proof follows the recursion of
subset_image: if the matched pivot lies inside S this is the explicit
zero branch; otherwise every recursive call is again on a dependent set,
by the circuit elimination axiom. -/
theorem subsetImage_dependent {R : Type} [CommRing R] [DecidableEq R]
    {D : OSData} (hw : WF D) :
    ∀ (S : Finset ℕ), (∃ c ∈ D.circuits, c ⊆ S) → subsetImage R D S = 0 := by
  suffices h : ∀ (n : ℕ) (S : Finset ℕ), measw D S < n →
      (∃ c ∈ D.circuits, c ⊆ S) → subsetImage R D S = 0 by
    intro S hdep
    exact h (measw D S + 1) S (by omega) hdep
  intro n
  induction n using Nat.strong_induction_on with
  | _ n ih =>
    intro S hS hdep
    obtain ⟨C, hC, hCS⟩ := hdep
    cases hfe : findEntry D S with
    | none =>
      exfalso
      have hnbc : isNBC D S := findEntry_eq_none_iff.mp hfe
      exact hnbc C hC (subset_trans (OSData.brokenOf_subset (hw.2.1 C hC)) hCS)
    | some e =>
      obtain ⟨bc, i⟩ := e
      by_cases hiS : i ∈ S
      · exact subsetImage_of_pivot_mem hfe hiS
      · obtain ⟨hbcS, c₀, hc₀, hins, hibc, hlt⟩ := entry_spec hw hfe
        have hiC : i ∉ C := fun hi => hiS (hCS hi)
        have hdec := measw_of_entry hw hfe hiS
        rw [subsetImage_of_pivot_not_mem hw hfe hiS]
        refine loopVal_eq_of_zero (fun j _ hj => ?_) _ _ _
        refine ih (measw D S) hS _ (hdec j hj) ?_
        by_cases hjC : j ∈ C
        · have hne : c₀ ≠ C := by
            intro hc
            rw [← hc] at hiC
            exact hiC (hins ▸ Finset.mem_insert_self i bc)
          have hjc₀ : j ∈ c₀ := hins ▸ Finset.mem_insert_of_mem hj
          obtain ⟨c₃, hc₃, hsub₃⟩ :=
            hw.2.2.2 c₀ hc₀ C hC hne j (Finset.mem_inter.mpr ⟨hjc₀, hjC⟩)
          refine ⟨c₃, hc₃, subset_trans hsub₃ ?_⟩
          apply Finset.erase_subset_erase
          apply Finset.union_subset
          · rw [← hins]
            exact Finset.insert_subset_insert i hbcS
          · exact subset_trans hCS (Finset.subset_insert i S)
        · refine ⟨C, hC, ?_⟩
          intro x hx
          rw [Finset.mem_erase]
          exact ⟨fun he => hjC (he ▸ hx),
            Finset.mem_insert_of_mem (hCS hx)⟩

/-- Support theorem: every subset with a nonzero coefficient in a reduced
element is an NBC set of the same cardinality as the argument. -/
theorem subsetImage_support {R : Type} [CommRing R] [DecidableEq R]
    {D : OSData} (hw : WF D) :
    ∀ (S T : Finset ℕ), (subsetImage R D S).coeff T ≠ 0 →
      isNBC D T ∧ T.card = S.card := by
  suffices h : ∀ (n : ℕ) (S : Finset ℕ), measw D S < n →
      ∀ (T : Finset ℕ), (subsetImage R D S).coeff T ≠ 0 →
      isNBC D T ∧ T.card = S.card by
    intro S T hT
    exact h (measw D S + 1) S (by omega) T hT
  intro n
  induction n using Nat.strong_induction_on with
  | _ n ih =>
    intro S hS T hT
    cases hfe : findEntry D S with
    | none =>
      rw [subsetImage_of_none hfe] at hT
      have hTS : T = S := by
        by_contra hne
        rw [Elem.coeff_monomial, if_neg hne] at hT
        exact hT rfl
      subst hTS
      exact ⟨findEntry_eq_none_iff.mp hfe, rfl⟩
    | some e =>
      obtain ⟨bc, i⟩ := e
      by_cases hiS : i ∈ S
      · rw [subsetImage_of_pivot_mem hfe hiS] at hT
        exact absurd rfl hT
      · obtain ⟨hbcS, c₀, hc₀, hins, hibc, hlt⟩ := entry_spec hw hfe
        have hdec := measw_of_entry hw hfe hiS
        rw [subsetImage_of_pivot_not_mem hw hfe hiS] at hT
        rcases loopVal_coeff _ _ _ _ hT with h0 | ⟨j, hjl, hj, hjc⟩
        · exact absurd rfl h0
        · have hcard : ((insert i S).erase j).card = S.card := by
            rw [Finset.card_erase_of_mem
              (Finset.mem_insert_of_mem (hbcS hj)),
              Finset.card_insert_of_not_mem hiS]
            omega
          obtain ⟨h1, h2⟩ := ih (measw D S) hS _ (hdec j hj) T hjc
          exact ⟨h1, h2.trans hcard⟩

/-!
## The remaining public surface of the algebra
-/

/-- one() of the algebra: the basis monomial on the empty NBC set. -/
def algebraOne : Elem R := Elem.monomial ∅ 1

/-- algebra_generators(): the family over the ground set sending x to
subset_image(frozenset([x])). -/
def algebraGenerators (D : OSData) (x : ℕ) : Elem R := subsetImage R D {x}

/-- Position of an element in the enumeration of a subset sorted by the
ordering (ns_sorted.index(i) in the source). -/
def posIn (D : OSData) (i : ℕ) (s : Finset ℕ) : ℕ := (D.csorted s).indexOf i

/-- The bilinear extension pattern of the combinatorial free module: the
product of two elements is the double sum of the products of their basis
terms weighted by the coefficients. -/
def bilinProd (f : Finset ℕ → Finset ℕ → Elem R) (x y : Elem R) : Elem R :=
  ∑ m ∈ x.supp, ∑ m' ∈ y.supp, Elem.smul (x.coeff m * y.coeff m') (f m m')

/-- Fuel-indexed model of OrlikSolomonAlgebra.product_on_basis.  An empty
factor gives the basis element of the other, overlapping factors give
zero, a singleton left factor inserts its element with the sign of its
position, and a larger left factor is expanded generator by generator in
ascending order, each step going through the algebra product, i.e. the
bilinear extension of product_on_basis itself (hence the fuel). -/
def productOnBasisF (D : OSData) : ℕ → Finset ℕ → Finset ℕ → Elem R
  | 0, _, _ => 0
  | (fuel+1), a, b =>
    if a = ∅ then Elem.monomial b 1
    else if b = ∅ then Elem.monomial a 1
    else if a ∩ b ≠ ∅ then 0
    else if a.card = 1 then
      Elem.smul ((-1 : R) ^ posIn D ((D.csorted a).headI) (b ∪ a))
        (subsetImage R D (b ∪ a))
    else
      (D.csorted a).foldl
        (fun r i => bilinProd R (productOnBasisF D fuel)
          (algebraGenerators R D i) r)
        (Elem.smul (if a.card % 4 < 2 then (1 : R) else -1) (Elem.monomial b 1))

/-- product_on_basis: the fueled model with enough fuel for the one level
of reentrance through the algebra product (the generators multiplied in
the expansion loop are single basis terms, so their products fall into
the fuel-free branches). -/
def productOnBasis (D : OSData) (a b : Finset ℕ) : Elem R :=
  productOnBasisF R D 2 a b

/-- The algebra product on arbitrary elements: bilinear extension of
product_on_basis. -/
def emul (D : OSData) (x y : Elem R) : Elem R :=
  bilinProd R (productOnBasis R D) x y

/-- A matroid is loopless when every circuit has at least two elements. -/
def loopless (D : OSData) : Prop := ∀ c ∈ D.circuits, 2 ≤ c.card

/-- An independent set: one containing no circuit. -/
def indepSet (D : OSData) (S : Finset ℕ) : Prop := ∀ c ∈ D.circuits, ¬ c ⊆ S

instance (D : OSData) (T : Finset ℕ) : Decidable (isNBC D T) := by
  unfold isNBC
  infer_instance

instance (D : OSData) : Decidable (loopless D) := by
  unfold loopless
  infer_instance

instance (D : OSData) (S : Finset ℕ) : Decidable (indepSet D S) := by
  unfold indepSet
  infer_instance

/-!
## Error behaviour of subset_image

The source guards subset_image with isinstance(S, frozenset) and raises a
ValueError otherwise; the dynamically-typed argument is modelled by a sum
type of the shapes of interest: a frozenset, a mutable set, a list.

A frozenset that passes the isinstance check is never validated against
the ground set.  It is not always computed either: the expansion branch
sorts S with the pivot inserted using the dictionary self.sorting, whose
keys are exactly the ordering, an enumeration of the ground set; a lookup
for an element outside the ground set raises a KeyError there (and
sorted() evaluates the key of every element of the list before
comparing).  The error-aware model below mirrors the recursion of
subset_image with this failure point restored: no error when the search
finds no broken circuit or detects a full circuit (no sort is executed),
a KeyError when the expansion branch sorts a set that leaves the ground
set, and propagation of errors out of the recursive calls of the sweep.
-/

inductive PyObj where
  | frozen : Finset ℕ → PyObj
  | mutableSet : Finset ℕ → PyObj
  | pylist : List ℕ → PyObj
deriving DecidableEq

/-- The exceptions subset_image can raise: the explicit ValueError of the
isinstance validation (with its message), and the KeyError coming out of
the ordering-dictionary lookup in the expansion branch. -/
inductive PyErr where
  | valueError : String → PyErr
  | keyError : PyErr
deriving DecidableEq

/-- The sweep of subset_image with error propagation: a recursive call
that raises makes the whole call raise. -/
def siLoopE (rec : Finset ℕ → Option (Except PyErr (Elem R)))
    (Si bc : Finset ℕ) (i : ℕ) :
    List ℕ → R → Bool → Elem R → Option (Except PyErr (Elem R))
  | [], _, _, r => some (Except.ok r)
  | j :: js, coeff, switch, r =>
    if j ∈ bc then
      match rec (Si.erase j) with
      | none => none
      | some (Except.error e) => some (Except.error e)
      | some (Except.ok v) =>
          siLoopE rec Si bc i js (if switch then -coeff else coeff)
            (if j = i then true else switch) (r + Elem.smul coeff v)
    else
      siLoopE rec Si bc i js (if switch then -coeff else coeff)
        (if j = i then true else switch) r

/-- Fuel-indexed error-aware model of subset_image on a frozenset
argument.  The NBC and full-circuit branches return without sorting; the
expansion branch raises a KeyError when the set with the pivot inserted
is not contained in the ground set (the domain of the ordering
dictionary), and otherwise runs the sweep. -/
def subsetImageFE (D : OSData) : ℕ → Finset ℕ → Option (Except PyErr (Elem R))
  | 0, _ => none
  | (fuel+1), S =>
    match findEntry D S with
    | none => some (Except.ok (Elem.monomial S 1))
    | some (bc, i) =>
      if i ∈ S then some (Except.ok 0)
      else if insert i S ⊆ D.groundset then
        siLoopE R (subsetImageFE D fuel) (insert i S) bc i
          (D.csorted (insert i S)) 1 false 0
      else some (Except.error PyErr.keyError)

/-- The error-aware run of subset_image on a frozenset: the fueled model
at fuel one above the termination measure. -/
def subsetImageRun (D : OSData) (S : Finset ℕ) : Except PyErr (Elem R) :=
  (subsetImageFE R D (measw D S + 1) S).getD (Except.error PyErr.keyError)

/-- subset_image together with its isinstance validation: only the
immutable-set shape passes the check; everything else raises the
ValueError.  A frozenset proceeds to the computation, which may itself
raise a KeyError. -/
def subsetImageChecked (D : OSData) : PyObj → Except PyErr (Elem R)
  | PyObj.frozen S => subsetImageRun R D S
  | _ => Except.error (PyErr.valueError "S needs to be a frozenset")

/-- When every recursive call of the error-propagating sweep succeeds
with the value of the pure function f, the sweep returns the pure sweep
without raising. -/
theorem siLoopE_eq_of_rec {R : Type} [CommRing R] [DecidableEq R]
    {rec : Finset ℕ → Option (Except PyErr (Elem R))} (f : Finset ℕ → Elem R)
    {Si bc : Finset ℕ} {i : ℕ} :
    ∀ {l : List ℕ},
      (∀ j ∈ l, j ∈ bc → rec (Si.erase j) = some (Except.ok (f (Si.erase j)))) →
      ∀ (c : R) (b : Bool) (r : Elem R),
        siLoopE R rec Si bc i l c b r
          = some (Except.ok (loopVal R f Si bc i l c b r)) := by
  intro l
  induction l with
  | nil => intro _ c b r; rfl
  | cons j js ih =>
    intro h c b r
    have hjs : ∀ a ∈ js, a ∈ bc →
        rec (Si.erase a) = some (Except.ok (f (Si.erase a))) :=
      fun a ha => h a (List.mem_cons_of_mem _ ha)
    by_cases hj : j ∈ bc
    · rw [siLoopE, loopVal, if_pos hj, if_pos hj,
        h j (List.mem_cons_self _ _) hj]
      exact ih hjs _ _ _
    · rw [siLoopE, loopVal, if_neg hj, if_neg hj]
      exact ih hjs _ _ _

/-- An error coming out of the sweep comes out of one of its recursive
calls. -/
theorem siLoopE_error_of_rec {R : Type} [CommRing R] [DecidableEq R]
    {rec : Finset ℕ → Option (Except PyErr (Elem R))}
    {Si bc : Finset ℕ} {i : ℕ} :
    ∀ {l : List ℕ} {c : R} {b : Bool} {r : Elem R} {e : PyErr},
      siLoopE R rec Si bc i l c b r = some (Except.error e) →
      ∃ j ∈ l, j ∈ bc ∧ rec (Si.erase j) = some (Except.error e) := by
  intro l
  induction l with
  | nil =>
    intro c b r e h
    have h' : some (Except.ok r) = some (Except.error e) := h
    simp at h'
  | cons j js ih =>
    intro c b r e h
    rw [siLoopE] at h
    by_cases hj : j ∈ bc
    · rw [if_pos hj] at h
      cases hrec : rec (Si.erase j) with
      | none =>
        rw [hrec] at h
        have h' : (none : Option (Except PyErr (Elem R)))
            = some (Except.error e) := h
        simp at h'
      | some v =>
        cases v with
        | error e' =>
          rw [hrec] at h
          have h' : some (Except.error e') = some (Except.error e) := h
          have he : e' = e := by
            injection h' with h2
            injection h2
          exact ⟨j, List.mem_cons_self _ _, hj, by rw [hrec, he]⟩
        | ok v =>
          rw [hrec] at h
          obtain ⟨a, ha, hab, hac⟩ := ih h
          exact ⟨a, List.mem_cons_of_mem _ ha, hab, hac⟩
    · rw [if_neg hj] at h
      obtain ⟨a, ha, hab, hac⟩ := ih h
      exact ⟨a, List.mem_cons_of_mem _ ha, hab, hac⟩

/-!
## Concrete instances used as witnesses and counterexamples
-/

/-- The triangle (uniform rank-2 matroid on three points): ground set
0,1,2, single circuit 0,1,2, natural ordering. -/
def triData : OSData := ⟨{0, 1, 2}, [{0, 1, 2}], id⟩

/-- A single loop: ground set 0, circuit 0.  A legitimate matroid (the
rank-zero uniform matroid on one point). -/
def loopData : OSData := ⟨{0}, [{0}], id⟩

/-- The free matroid on one point: no circuits. -/
def freeData : OSData := ⟨{0}, [], id⟩

/-!
## The claims
-/

/-- C2: for every matroid, ordering and ring and every frozenset S that is
a subset of the ground set, subset_image(S) terminates: the fueled
recursion succeeds at every fuel above the measure of S, even though each
recursive call is on a set of the same cardinality as S. -/
theorem claim_C2_termination {R : Type} [CommRing R] [DecidableEq R]
    {D : OSData} (hw : WF D) {S : Finset ℕ} (_hS : S ⊆ D.groundset) :
    (∀ fuel, measw D S < fuel → (subsetImageF R D fuel S).isSome = true) ∧
    (∀ bc i, findEntry D S = some (bc, i) → i ∉ S →
      ∀ j ∈ bc, ((insert i S).erase j).card = S.card) := by
  constructor
  · intro fuel hf
    rw [subsetImageF_eq hw fuel S hf]
    rfl
  · intro bc i hfe hiS j hj
    obtain ⟨hbcS, -⟩ := entry_spec hw hfe
    rw [Finset.card_erase_of_mem (Finset.mem_insert_of_mem (hbcS hj)),
      Finset.card_insert_of_not_mem hiS]
    omega

/-- Witness for C2: the triangle matroid at the broken circuit. -/
theorem claim_C2_witness :
    (subsetImageF ℤ triData (measw triData {1, 2} + 1) {1, 2}).isSome = true :=
  (claim_C2_termination (R := ℤ) (by decide) (by decide)).1 _ (by decide)

/-- C3: for every circuit C of the matroid, subset_image(C) is the zero
element of the algebra. -/
theorem claim_C3_circuit_zero {R : Type} [CommRing R] [DecidableEq R]
    {D : OSData} (hw : WF D) {C : Finset ℕ} (hC : C ∈ D.circuits) :
    subsetImage R D C = 0 :=
  subsetImage_dependent hw C ⟨C, hC, subset_rfl⟩

/-- Witness for C3: the triangle circuit reduces to zero. -/
theorem claim_C3_witness : subsetImage ℤ triData {0, 1, 2} = 0 :=
  claim_C3_circuit_zero (by decide) (by decide)

/-- C5: product_on_basis on nonempty overlapping NBC sets returns the
zero element (rather than raising), and in particular the product of a
generator index with itself is zero. -/
theorem claim_C5_overlap_zero {R : Type} [CommRing R] [DecidableEq R]
    (D : OSData) :
    (∀ a b : Finset ℕ, a ≠ ∅ → b ≠ ∅ → isNBC D a → isNBC D b →
      (a ∩ b).Nonempty → productOnBasis R D a b = 0) ∧
    (∀ x : ℕ, productOnBasis R D {x} {x} = 0) := by
  have key : ∀ a b : Finset ℕ, a ≠ ∅ → b ≠ ∅ → (a ∩ b).Nonempty →
      productOnBasis R D a b = 0 := by
    intro a b ha hb hab
    rw [productOnBasis]
    simp only [productOnBasisF]
    rw [if_neg ha, if_neg hb,
      if_pos (Finset.nonempty_iff_ne_empty.mp hab)]
  refine ⟨fun a b ha hb _ _ hab => key a b ha hb hab, fun x => ?_⟩
  exact key {x} {x} (Finset.singleton_ne_empty x) (Finset.singleton_ne_empty x)
    (by rw [Finset.inter_self]; exact Finset.singleton_nonempty x)

/-- Witness for C5: two overlapping NBC sets of the triangle, and a
repeated singleton. -/
theorem claim_C5_witness :
    productOnBasis ℤ triData {0, 1} {0, 2} = 0 ∧
    productOnBasis ℤ triData {0} {0} = 0 :=
  ⟨(claim_C5_overlap_zero (R := ℤ) triData).1 {0, 1} {0, 2} (by decide) (by decide)
      (by decide) (by decide) ⟨0, by decide⟩,
   (claim_C5_overlap_zero (R := ℤ) triData).2 0⟩

/-- C7 counterexample: for the matroid consisting of a single loop (a
legitimate matroid), subset_image of the empty set is zero, not one():
the table contains the empty broken circuit, whose expansion sweep adds
no term. -/
theorem claim_C7_counterexample :
    WF loopData ∧ subsetImage ℤ loopData ∅ ≠ algebraOne ℤ := by
  refine ⟨by decide, fun h => ?_⟩
  have h0 : (subsetImage ℤ loopData ∅).coeff ∅ = (algebraOne ℤ).coeff ∅ := by
    rw [h]
  revert h0
  decide

/-- C7 amended: for every matroid without loops, every ordering and every
ring, subset_image of the empty set equals one(). -/
theorem claim_C7_amended {R : Type} [CommRing R] [DecidableEq R]
    {D : OSData} (_hw : WF D) (hl : loopless D) :
    subsetImage R D ∅ = algebraOne R := by
  have hfe : findEntry D ∅ = none := by
    rw [findEntry_eq_none_iff]
    intro c hc hsub
    have hcard := hl c hc
    have hb : D.brokenOf c = ∅ := Finset.subset_empty.mp hsub
    have hlen : (D.csorted c).length = c.card := by
      have h1 := List.toFinset_card_of_nodup (D.nodup_csorted c)
      rw [D.toFinset_csorted c] at h1
      exact h1.symm
    have htail : (D.csorted c).tail ≠ [] := by
      intro he
      have h2 : (D.csorted c).tail.length = c.card - 1 := by
        rw [List.length_tail, hlen]
      rw [he] at h2
      simp at h2
      omega
    rw [OSData.brokenOf] at hb
    exact htail (List.toFinset_eq_empty_iff _ |>.mp hb)
  rw [subsetImage_of_none hfe]
  rfl

/-- Witness for the amended C7 at the triangle matroid. -/
theorem claim_C7_witness : subsetImage ℤ triData ∅ = algebraOne ℤ :=
  claim_C7_amended (by decide) (by decide)

/-- The fueled error-aware model never produces the validation error: the
only exception raised past the isinstance check is the KeyError of the
ordering lookup. -/
theorem subsetImageFE_error {R : Type} [CommRing R] [DecidableEq R]
    {D : OSData} :
    ∀ (fuel : ℕ) (S : Finset ℕ) (e : PyErr),
      subsetImageFE R D fuel S = some (Except.error e) → e = PyErr.keyError := by
  intro fuel
  induction fuel with
  | zero =>
    intro S e h
    have h' : (none : Option (Except PyErr (Elem R)))
        = some (Except.error e) := h
    simp at h'
  | succ fuel ih =>
    intro S e h
    cases hfe : findEntry D S with
    | none =>
      simp only [subsetImageFE, hfe] at h
      simp at h
    | some p =>
      obtain ⟨bc, i⟩ := p
      by_cases hiS : i ∈ S
      · simp only [subsetImageFE, hfe, if_pos hiS] at h
        simp at h
      · by_cases hsub : insert i S ⊆ D.groundset
        · simp only [subsetImageFE, hfe, if_neg hiS, if_pos hsub] at h
          obtain ⟨j, hjl, hjbc, hrec⟩ := siLoopE_error_of_rec h
          exact ih _ e hrec
        · simp only [subsetImageFE, hfe, if_neg hiS, if_neg hsub] at h
          have h' : PyErr.keyError = e := by
            injection h with h2
            injection h2
          exact h'.symm

/-- With well-formed data, the error-aware model succeeds on every subset
of the ground set, with the value of the pure reduction: the expansion
never leaves the ground set, so the KeyError branch is unreachable. -/
theorem subsetImageFE_eq {R : Type} [CommRing R] [DecidableEq R]
    {D : OSData} (hw : WF D) :
    ∀ (n : ℕ) (S : Finset ℕ), S ⊆ D.groundset → measw D S < n →
      subsetImageFE R D n S = some (Except.ok (subsetImage R D S)) := by
  intro n
  induction n using Nat.strong_induction_on with
  | _ n ih =>
    intro S hSg hS
    obtain ⟨m, rfl⟩ : ∃ m, n = m + 1 := ⟨n - 1, by omega⟩
    cases hfe : findEntry D S with
    | none =>
      rw [subsetImage_of_none hfe]
      simp only [subsetImageFE, hfe]
    | some e =>
      obtain ⟨bc, i⟩ := e
      by_cases hiS : i ∈ S
      · rw [subsetImage_of_pivot_mem hfe hiS]
        simp only [subsetImageFE, hfe, if_pos hiS]
      · obtain ⟨hbcS, c₀, hc₀, hins, hibc, hlt⟩ := entry_spec hw hfe
        have hig : i ∈ D.groundset :=
          hw.1 c₀ hc₀ (hins ▸ Finset.mem_insert_self i bc)
        have hSig : insert i S ⊆ D.groundset := Finset.insert_subset hig hSg
        have hdec := measw_of_entry hw hfe hiS
        rw [subsetImage_of_pivot_not_mem hw hfe hiS]
        simp only [subsetImageFE, hfe, if_neg hiS, if_pos hSig]
        refine siLoopE_eq_of_rec (subsetImage R D) (fun j hjl hj => ?_) _ _ _
        refine ih m (by omega) _ ?_ (lt_of_lt_of_le (hdec j hj) (by omega))
        exact subset_trans (Finset.erase_subset _ _) hSig

/-- The run of subset_image on a frozenset that stays in the ground set
computes the pure reduction. -/
theorem subsetImageRun_of_subset {R : Type} [CommRing R] [DecidableEq R]
    {D : OSData} (hw : WF D) {S : Finset ℕ} (hSg : S ⊆ D.groundset) :
    subsetImageRun R D S = Except.ok (subsetImage R D S) := by
  rw [subsetImageRun, subsetImageFE_eq hw _ S hSg (by omega)]
  rfl

/-- The run of subset_image on a frozenset matching no broken circuit
returns the monomial without any sorting, wherever the set lies. -/
theorem subsetImageRun_of_none {R : Type} [CommRing R] [DecidableEq R]
    {D : OSData} {S : Finset ℕ} (hfe : findEntry D S = none) :
    subsetImageRun R D S = Except.ok (Elem.monomial S 1) := by
  rw [subsetImageRun]
  simp only [subsetImageFE, hfe]
  rfl

/-- The run of subset_image raises the ordering-lookup KeyError exactly
when the expansion branch is reached on a set that leaves the ground
set. -/
theorem subsetImageRun_keyErr {R : Type} [CommRing R] [DecidableEq R]
    {D : OSData} {S bc : Finset ℕ} {i : ℕ}
    (hfe : findEntry D S = some (bc, i)) (hiS : i ∉ S)
    (hsub : ¬ insert i S ⊆ D.groundset) :
    subsetImageRun R D S = Except.error PyErr.keyError := by
  rw [subsetImageRun]
  simp only [subsetImageFE, hfe, if_neg hiS, if_neg hsub]
  rfl

/-- A frozenset argument never produces the validation error. -/
theorem subsetImageRun_ne_valueError {R : Type} [CommRing R] [DecidableEq R]
    (D : OSData) (S : Finset ℕ) (m : String) :
    subsetImageRun R D S ≠ Except.error (PyErr.valueError m) := by
  intro h
  rw [subsetImageRun] at h
  cases hv : subsetImageFE R D (measw D S + 1) S with
  | none =>
    rw [hv] at h
    simp [Option.getD] at h
  | some v =>
    rw [hv] at h
    cases v with
    | ok v =>
      simp at h
    | error e =>
      simp only [Option.getD_some] at h
      have he : e = PyErr.valueError m := by
        injection h
      rw [he] at hv
      have := subsetImageFE_error _ S _ hv
      simp at this

/-- C9 counterexample: subset_image performs no subset-of-ground-set
validation.  A frozenset outside the ground set matching no broken
circuit is accepted and computed (free matroid on one point, argument
containing a foreign element), so the validation error is not raised
exactly at non-(frozenset subsets of the ground set); and a frozenset
outside the ground set that reaches the expansion sweep fails with the
ordering-lookup KeyError (triangle matroid, argument with a foreign
element covering the broken circuit), not with the validation error. -/
theorem claim_C9_counterexample :
    WF freeData ∧
    ¬ (({1} : Finset ℕ) ⊆ freeData.groundset) ∧
    subsetImageChecked ℤ freeData (PyObj.frozen {1})
      = Except.ok (subsetImage ℤ freeData {1}) ∧
    WF triData ∧
    ¬ (({1, 2, 7} : Finset ℕ) ⊆ triData.groundset) ∧
    subsetImageChecked ℤ triData (PyObj.frozen {1, 2, 7})
      = Except.error PyErr.keyError := by
  refine ⟨by decide, by decide, ?_, by decide, by decide, ?_⟩
  · have hfe : findEntry freeData {1} = none := by decide
    show subsetImageRun ℤ freeData {1} = Except.ok (subsetImage ℤ freeData {1})
    rw [subsetImageRun_of_none hfe, subsetImage_of_none hfe]
  · have hfe : findEntry triData {1, 2, 7} = some ({1, 2}, 0) := by decide
    show subsetImageRun ℤ triData {1, 2, 7} = Except.error PyErr.keyError
    exact subsetImageRun_keyErr hfe (by decide) (by decide)

/-- C9 amended: subset_image raises its frozenset validation error
exactly when the argument is not a frozenset (the isinstance check); a
frozenset is never rejected by that validation and its membership in the
ground set is not validated: a frozenset inside the ground set is
computed, and a frozenset outside the ground set that reaches the
expansion sweep raises the ordering-lookup KeyError instead of the
validation error. -/
theorem claim_C9_amended {R : Type} [CommRing R] [DecidableEq R]
    {D : OSData} (hw : WF D) :
    (∀ o : PyObj, (∀ S, o ≠ PyObj.frozen S) →
      subsetImageChecked R D o
        = Except.error (PyErr.valueError "S needs to be a frozenset")) ∧
    (∀ (S : Finset ℕ) (m : String),
      subsetImageChecked R D (PyObj.frozen S)
        ≠ Except.error (PyErr.valueError m)) ∧
    (∀ S : Finset ℕ, S ⊆ D.groundset →
      subsetImageChecked R D (PyObj.frozen S)
        = Except.ok (subsetImage R D S)) ∧
    (∀ (S bc : Finset ℕ) (i : ℕ), findEntry D S = some (bc, i) → i ∉ S →
      ¬ insert i S ⊆ D.groundset →
      subsetImageChecked R D (PyObj.frozen S)
        = Except.error PyErr.keyError) := by
  refine ⟨?_, ?_, ?_, ?_⟩
  · intro o ho
    cases o with
    | frozen S => exact absurd rfl (ho S)
    | mutableSet S => rfl
    | pylist l => rfl
  · intro S m
    exact subsetImageRun_ne_valueError D S m
  · intro S hSg
    exact subsetImageRun_of_subset hw hSg
  · intro S bc i hfe hiS hsub
    exact subsetImageRun_keyErr hfe hiS hsub

/-- Witness for the amended C9: a mutable set is rejected with the
validation error. -/
theorem claim_C9_witness :
    subsetImageChecked ℤ triData (PyObj.mutableSet {0})
      = Except.error (PyErr.valueError "S needs to be a frozenset") :=
  (claim_C9_amended (R := ℤ) (by decide)).1 _ (fun _ h => nomatch h)

/-- C10: for every subset S of the ground set, subset_image(S) is
homogeneous of degree |S| with support inside the NBC sets, and when S is
itself NBC the result is exactly the monomial on S with unit
coefficient. -/
theorem claim_C10_homogeneous {R : Type} [CommRing R] [DecidableEq R]
    {D : OSData} (hw : WF D) {S : Finset ℕ} (_hS : S ⊆ D.groundset) :
    (∀ T, (subsetImage R D S).coeff T ≠ 0 → isNBC D T ∧ T.card = S.card) ∧
    (isNBC D S → subsetImage R D S = Elem.monomial S 1) := by
  constructor
  · intro T hT
    exact subsetImage_support hw S T hT
  · intro h
    exact subsetImage_of_none (findEntry_eq_none_iff.mpr h)

/-- Witness for C10 at the triangle matroid and the NBC set 0,2. -/
theorem claim_C10_witness :
    subsetImage ℤ triData {0, 2} = Elem.monomial {0, 2} 1 :=
  (claim_C10_homogeneous (by decide) (by decide)).2 (by decide)

/-- C8 counterexample: on the matroid consisting of a single loop (a
legitimate matroid), the generator at the loop is the zero element, which
is no basis monomial at all. -/
theorem claim_C8_counterexample :
    WF loopData ∧ 0 ∈ loopData.groundset ∧
    ∀ T : Finset ℕ, algebraGenerators ℤ loopData 0 ≠ Elem.monomial T 1 := by
  refine ⟨by decide, by decide, fun T h => ?_⟩
  have h0 : algebraGenerators ℤ loopData 0 = 0 := by
    unfold algebraGenerators
    exact subsetImage_dependent (by decide) {0} ⟨{0}, by decide, by decide⟩
  rw [h0] at h
  have h1 := congrArg (fun e => Elem.coeff e T) h
  simp only [Elem.coeff_zero, Elem.coeff_monomial, if_pos rfl] at h1
  exact absurd h1 (by decide)

/-- C8 amended: for every matroid without loops, the generator at any
ground-set element x is a single degree-1 basis monomial (on some NBC
singleton, with unit coefficient).  If x is non-minimal in a two-element
circuit, the generator is carried to a smaller-rank element; the
recursion bottoms out at an NBC singleton. -/
theorem claim_C8_amended {R : Type} [CommRing R] [DecidableEq R]
    {D : OSData} (hw : WF D) (hl : loopless D) {x : ℕ}
    (hx : x ∈ D.groundset) :
    ∃ y, isNBC D {y} ∧ algebraGenerators R D x = Elem.monomial {y} 1 := by
  suffices h : ∀ (n : ℕ) (x : ℕ), x ∈ D.groundset → D.sorting x < n →
      ∃ y, isNBC D {y} ∧ subsetImage R D {x} = Elem.monomial {y} 1 by
    exact h (D.sorting x + 1) x hx (by omega)
  intro n
  induction n using Nat.strong_induction_on with
  | _ n ih =>
    intro x hx hxn
    cases hfe : findEntry D {x} with
    | none =>
      exact ⟨x, findEntry_eq_none_iff.mp hfe, subsetImage_of_none hfe⟩
    | some e =>
      obtain ⟨bc, i⟩ := e
      obtain ⟨hbcS, c₀, hc₀, hins, hibc, hlt⟩ := entry_spec hw hfe
      have hbcne : bc ≠ ∅ := by
        intro hbe
        have hcard := hl c₀ hc₀
        rw [hbe] at hins
        rw [← hins] at hcard
        simp at hcard
      have hbcx : bc = {x} := by
        rcases Finset.subset_singleton_iff.mp hbcS with h | h
        · exact absurd h hbcne
        · exact h
      have hxbc : x ∈ bc := by
        rw [hbcx]
        exact Finset.mem_singleton_self x
      have hix : i ≠ x := fun h => hibc (h ▸ hxbc)
      have hiS : i ∉ ({x} : Finset ℕ) := by
        rw [Finset.mem_singleton]
        exact hix
      have hrank : D.sorting i < D.sorting x := hlt x hxbc
      have hig : i ∈ D.groundset :=
        hw.1 c₀ hc₀ (hins ▸ Finset.mem_insert_self i bc)
      have hcs : D.csorted (insert i {x}) = [i, x] := by
        refine eq_of_perm_of_strictSorted D.sorting ?_ ?_ ?_
        · refine List.perm_of_nodup_nodup_toFinset_eq
            (D.nodup_csorted _) (by simp [hix]) ?_
          rw [D.toFinset_csorted]
          simp
        · refine OSData.strictSorted_csorted ?_
          intro a ha b hb hab
          have hag : a ∈ D.groundset := by
            rcases Finset.mem_insert.mp ha with h | h
            · exact h ▸ hig
            · rw [Finset.mem_singleton] at h
              exact h ▸ hx
          have hbg : b ∈ D.groundset := by
            rcases Finset.mem_insert.mp hb with h | h
            · exact h ▸ hig
            · rw [Finset.mem_singleton] at h
              exact h ▸ hx
          exact hw.2.2.1 a hag b hbg hab
        · rw [List.sorted_cons]
          constructor
          · intro b hb
            rw [List.mem_singleton] at hb
            exact hb ▸ hrank
          · simp
      have herase : (insert i ({x} : Finset ℕ)).erase x = {i} := by
        rw [Finset.erase_insert_of_ne hix, Finset.erase_singleton]
        rfl
      rw [subsetImage_of_pivot_not_mem hw hfe hiS, hcs]
      rw [loopVal, if_neg hibc, loopVal, if_pos hxbc, loopVal]
      rw [herase]
      obtain ⟨y, hy1, hy2⟩ := ih (D.sorting x) hxn i hig hrank
      refine ⟨y, hy1, ?_⟩
      rw [hy2]
      apply Elem.ext
      intro m
      simp

/-- Witness for the amended C8: in the triangle, the generator at 2 is
the monomial on 2. -/
theorem claim_C8_witness :
    ∃ y, isNBC triData {y} ∧
      algebraGenerators ℤ triData 2 = Elem.monomial {y} 1 :=
  claim_C8_amended (by decide) (by decide) (by decide)

/-- The singleton branch of product_on_basis, written out. -/
theorem productOnBasis_singleton {R : Type} [CommRing R] [DecidableEq R]
    (D : OSData) {x y : ℕ} (hxy : x ≠ y) :
    productOnBasis R D {x} {y}
      = Elem.smul ((-1 : R) ^ posIn D x ({y} ∪ {x}))
          (subsetImage R D ({y} ∪ {x})) := by
  have hd : ¬ (({x} ∩ {y} : Finset ℕ) ≠ ∅) := by
    rw [not_not]
    exact Finset.singleton_inter_of_not_mem (by simp [hxy])
  rw [productOnBasis]
  simp only [productOnBasisF]
  rw [if_neg (Finset.singleton_ne_empty x), if_neg (Finset.singleton_ne_empty y),
    if_neg hd, if_pos (Finset.card_singleton x), OSData.csorted_singleton]
  rfl

/-- C4: for distinct ground-set elements x and y forming an independent
pair, product_on_basis on the singletons is skew-commutative: the two
products are additive negations of each other. -/
theorem claim_C4_antisymmetry {R : Type} [CommRing R] [DecidableEq R]
    {D : OSData} (hw : WF D) {x y : ℕ} (hx : x ∈ D.groundset)
    (hy : y ∈ D.groundset) (hxy : x ≠ y) (_hind : indepSet D {x, y}) :
    productOnBasis R D {x} {y} = Elem.neg (productOnBasis R D {y} {x}) := by
  have hU1 : ({y} ∪ {x} : Finset ℕ) = {x, y} := by
    ext a
    simp [or_comm]
  have hU2 : ({x} ∪ {y} : Finset ℕ) = {x, y} := by
    ext a
    simp
  rw [productOnBasis_singleton D hxy, productOnBasis_singleton D hxy.symm,
    hU1, hU2]
  rcases Nat.lt_trichotomy (D.sorting x) (D.sorting y) with h | h | h
  · have hcs := OSData.csorted_pair (D := D) h
    have hpx : posIn D x ({x, y} : Finset ℕ) = 0 := by
      rw [posIn, hcs]
      exact List.indexOf_cons_self x [y]
    have hpy : posIn D y ({x, y} : Finset ℕ) = 1 := by
      rw [posIn, hcs, List.indexOf_cons_ne _ hxy, List.indexOf_cons_self]
    rw [hpx, hpy]
    apply Elem.ext
    intro m
    simp only [Elem.coeff_smul, Elem.coeff_neg]
    ring
  · exact absurd (hw.2.2.1 x hx y hy h) hxy
  · have hcs := OSData.csorted_pair (D := D) h
    have hpx : posIn D x ({x, y} : Finset ℕ) = 1 := by
      rw [posIn, Finset.pair_comm, hcs, List.indexOf_cons_ne _ hxy.symm,
        List.indexOf_cons_self]
    have hpy : posIn D y ({x, y} : Finset ℕ) = 0 := by
      rw [posIn, Finset.pair_comm, hcs]
      exact List.indexOf_cons_self y [x]
    rw [hpx, hpy]
    apply Elem.ext
    intro m
    simp only [Elem.coeff_smul, Elem.coeff_neg]
    ring

/-- Witness for C4 at the triangle matroid, elements 0 and 1. -/
theorem claim_C4_witness :
    productOnBasis ℤ triData {0} {1}
      = Elem.neg (productOnBasis ℤ triData {1} {0}) :=
  claim_C4_antisymmetry (by decide) (by decide) (by decide) (by decide)
    (by decide)

/-- Degrees of the fuel-free branches of product_on_basis: with a left
factor of at most one element, every term of the product is an NBC set of
cardinality the sum of the cardinalities. -/
theorem pOBF1_support {R : Type} [CommRing R] [DecidableEq R] {D : OSData}
    (hw : WF D) {m m' : Finset ℕ} (hmc : m.card ≤ 1) (hm : isNBC D m)
    (hm' : isNBC D m') :
    ∀ T, (productOnBasisF R D 1 m m').coeff T ≠ 0 →
      isNBC D T ∧ T.card = m.card + m'.card := by
  intro T hT
  simp only [productOnBasisF] at hT
  by_cases h1 : m = ∅
  · rw [if_pos h1] at hT
    have hTb : T = m' := by
      by_contra hne
      rw [Elem.coeff_monomial, if_neg hne] at hT
      exact hT rfl
    subst hTb
    rw [h1]
    simpa using hm'
  · rw [if_neg h1] at hT
    by_cases h2 : m' = ∅
    · rw [if_pos h2] at hT
      have hTb : T = m := by
        by_contra hne
        rw [Elem.coeff_monomial, if_neg hne] at hT
        exact hT rfl
      subst hTb
      rw [h2]
      simpa using hm
    · rw [if_neg h2] at hT
      by_cases h3 : m ∩ m' ≠ ∅
      · rw [if_pos h3] at hT
        exact absurd rfl hT
      · rw [if_neg h3] at hT
        have hc1 : m.card = 1 := by
          have : m.card ≠ 0 := fun h => h1 (Finset.card_eq_zero.mp h)
          omega
        rw [if_pos hc1, Elem.coeff_smul] at hT
        have hA : (subsetImage R D (m' ∪ m)).coeff T ≠ 0 :=
          fun h => hT (by rw [h, mul_zero])
        obtain ⟨hT1, hT2⟩ := subsetImage_support hw (m' ∪ m) T hA
        refine ⟨hT1, ?_⟩
        rw [hT2, Finset.card_union_of_disjoint]
        · omega
        · rw [not_not] at h3
          rw [disjoint_comm]
          exact Finset.disjoint_iff_inter_eq_empty.mpr h3

/-- One generator-multiplication step of the expansion loop of
product_on_basis raises degree by exactly one on every surviving term. -/
theorem bilinProd_step {R : Type} [CommRing R] [DecidableEq R] {D : OSData}
    (hw : WF D) (i : ℕ) (r : Elem R) (k : ℕ)
    (hr : ∀ T, r.coeff T ≠ 0 → isNBC D T ∧ T.card = k) :
    ∀ T, (bilinProd R (productOnBasisF R D 1)
        (algebraGenerators R D i) r).coeff T ≠ 0 →
      isNBC D T ∧ T.card = k + 1 := by
  intro T hT
  rw [bilinProd, Elem.coeff_sum] at hT
  obtain ⟨m, hmG, hTm⟩ := Finset.exists_ne_zero_of_sum_ne_zero hT
  rw [Elem.coeff_sum] at hTm
  obtain ⟨m', hmr, hTm'⟩ := Finset.exists_ne_zero_of_sum_ne_zero hTm
  rw [Elem.coeff_smul] at hTm'
  have hf : (productOnBasisF R D 1 m m').coeff T ≠ 0 :=
    fun h => hTm' (by rw [h, mul_zero])
  obtain ⟨hG1, hG2⟩ := subsetImage_support hw {i} m
    (((algebraGenerators R D i).mem_supp m).mp hmG)
  obtain ⟨hr1, hr2⟩ := hr m' ((r.mem_supp m').mp hmr)
  rw [Finset.card_singleton] at hG2
  obtain ⟨h1, h2⟩ := pOBF1_support hw (le_of_eq hG2) hG1 hr1 T hf
  refine ⟨h1, ?_⟩
  rw [h2, hG2, hr2]
  omega

/-- The degree invariant through the generator-by-generator expansion
fold of product_on_basis. -/
theorem foldl_bilinProd_support {R : Type} [CommRing R] [DecidableEq R]
    {D : OSData} (hw : WF D) :
    ∀ (l : List ℕ) (r : Elem R) (k : ℕ),
      (∀ T, r.coeff T ≠ 0 → isNBC D T ∧ T.card = k) →
      ∀ T, (l.foldl (fun r i => bilinProd R (productOnBasisF R D 1)
          (algebraGenerators R D i) r) r).coeff T ≠ 0 →
      isNBC D T ∧ T.card = k + l.length := by
  intro l
  induction l with
  | nil =>
    intro r k hr T hT
    simpa using hr T hT
  | cons i is ih =>
    intro r k hr T hT
    rw [List.foldl_cons] at hT
    obtain ⟨h1, h2⟩ := ih _ (k + 1) (bilinProd_step hw i r k hr) T hT
    refine ⟨h1, ?_⟩
    rw [h2]
    simp only [List.length_cons]
    omega

/-- C6: for NBC sets a and b, every basis term with nonzero coefficient
in product_on_basis(a, b) is an NBC set of cardinality exactly the sum of
the cardinalities of a and b (the degree_on_basis of every term is the
sum of the degrees of the factors). -/
theorem claim_C6_grading {R : Type} [CommRing R] [DecidableEq R]
    {D : OSData} (hw : WF D) {a b : Finset ℕ} (ha : isNBC D a)
    (hb : isNBC D b) :
    ∀ T, (productOnBasis R D a b).coeff T ≠ 0 →
      isNBC D T ∧ T.card = a.card + b.card := by
  intro T hT
  rw [productOnBasis] at hT
  simp only [productOnBasisF] at hT
  by_cases h1 : a = ∅
  · rw [if_pos h1] at hT
    have hTb : T = b := by
      by_contra hne
      rw [Elem.coeff_monomial, if_neg hne] at hT
      exact hT rfl
    subst hTb
    rw [h1]
    simpa using hb
  · rw [if_neg h1] at hT
    by_cases h2 : b = ∅
    · rw [if_pos h2] at hT
      have hTb : T = a := by
        by_contra hne
        rw [Elem.coeff_monomial, if_neg hne] at hT
        exact hT rfl
      subst hTb
      rw [h2]
      simpa using ha
    · rw [if_neg h2] at hT
      by_cases h3 : a ∩ b ≠ ∅
      · rw [if_pos h3] at hT
        exact absurd rfl hT
      · rw [if_neg h3] at hT
        by_cases h4 : a.card = 1
        · rw [if_pos h4, Elem.coeff_smul] at hT
          have hA : (subsetImage R D (b ∪ a)).coeff T ≠ 0 :=
            fun h => hT (by rw [h, mul_zero])
          obtain ⟨hT1, hT2⟩ := subsetImage_support hw (b ∪ a) T hA
          refine ⟨hT1, ?_⟩
          rw [hT2, Finset.card_union_of_disjoint]
          · omega
          · rw [not_not] at h3
            rw [disjoint_comm]
            exact Finset.disjoint_iff_inter_eq_empty.mpr h3
        · rw [if_neg h4] at hT
          have hr0 : ∀ T', (Elem.smul (if a.card % 4 < 2 then (1 : R) else -1)
              (Elem.monomial b 1)).coeff T' ≠ 0 →
              isNBC D T' ∧ T'.card = b.card := by
            intro T' hT'
            rw [Elem.coeff_smul, Elem.coeff_monomial] at hT'
            have hTb : T' = b := by
              by_contra hne
              rw [if_neg hne, mul_zero] at hT'
              exact hT' rfl
            subst hTb
            exact ⟨hb, rfl⟩
          obtain ⟨hh1, hh2⟩ :=
            foldl_bilinProd_support hw (D.csorted a) _ b.card hr0 T hT
          refine ⟨hh1, ?_⟩
          rw [hh2, D.length_csorted a]
          omega

/-- Witness for C6 at the triangle matroid. -/
theorem claim_C6_witness :
    isNBC triData {0, 2} ∧ ({0, 2} : Finset ℕ).card
      = ({2} : Finset ℕ).card + ({0} : Finset ℕ).card :=
  claim_C6_grading (R := ℤ) (by decide) (by decide) (by decide) {0, 2} (by decide)

end OrlikSolomon
